import Mathlib

/-
Verification of the conversation state machine of the ai_chat_app
single-page chat application (src/aiChatApp/src/App.tsx).

Strings are modelled as lists of characters.  Every JavaScript string
operation used by the source (regex replaces without the u flag, trim,
substring, btoa/atob) acts code-unit by code-unit; since sanitised output
is pure ASCII the list-of-scalars model yields the same results.
-/

/-- Characters matched by the JavaScript regex class backslash-s
(whitespace), identified by code point. -/
def isJsSpace (c : Char) : Bool :=
  let n := c.toNat
  (9 ≤ n && n ≤ 13) || n = 32 || n = 160 || n = 5760 ||
  (8192 ≤ n && n ≤ 8202) || n = 8232 || n = 8233 || n = 8239 ||
  n = 8287 || n = 12288 || n = 65279

/-- Characters the sanitiser keeps unchanged: the class
[A-Za-z0-9 whitespace hyphen parens brackets] of the first replace in
sanitizeFileName. -/
def isSanitizeAllowed (c : Char) : Bool :=
  let n := c.toNat
  (65 ≤ n && n ≤ 90) || (97 ≤ n && n ≤ 122) || (48 ≤ n && n ≤ 57) ||
  isJsSpace c || n = 45 || n = 40 || n = 41 || n = 91 || n = 93

/-- Characters that can appear in a sanitised name: ASCII letters, digits,
hyphen, parentheses and square brackets. -/
def isSanitizedChar (c : Char) : Bool :=
  let n := c.toNat
  (65 ≤ n && n ≤ 90) || (97 ≤ n && n ≤ 122) || (48 ≤ n && n ≤ 57) ||
  n = 45 || n = 40 || n = 41 || n = 91 || n = 93

/-- Replace each maximal run of characters satisfying p by the single
character rep; the Boolean argument records whether the previous character
was part of a run.  Models the replaces of runs in sanitizeFileName. -/
def collapseRunsAux (p : Char → Bool) (rep : Char) : Bool → List Char → List Char
  | _, [] => []
  | inRun, c :: rest =>
    if p c then
      if inRun then collapseRunsAux p rep true rest
      else rep :: collapseRunsAux p rep true rest
    else c :: collapseRunsAux p rep false rest

/-- Replace each maximal run of characters satisfying p by rep. -/
def collapseRuns (p : Char → Bool) (rep : Char) (l : List Char) : List Char :=
  collapseRunsAux p rep false l

/-- JavaScript String.prototype.trim: drop whitespace from both ends. -/
def trimChars (l : List Char) : List Char :=
  ((l.dropWhile isJsSpace).reverse.dropWhile isJsSpace).reverse

/-- Strip one trailing ".pdf" extension, case-insensitively: the replace
of the regex dot-pdf-end-anchor (flag i) in sanitizeFileName. -/
def stripPdfExt (l : List Char) : List Char :=
  match l.reverse with
  | f :: d :: p :: dot :: rest =>
    if dot = '.' && (p = 'p' || p = 'P') && (d = 'd' || d = 'D') &&
       (f = 'f' || f = 'F') then rest.reverse else l
  | _ => l

/-- Test for the hyphen character, the class of the collapse of hyphen
runs in sanitizeFileName. -/
def hyphenP (c : Char) : Bool := c = '-'

/-- The sanitizeFileName function of App.tsx, step for step:
strip a trailing ".pdf"; replace disallowed characters by hyphen;
collapse whitespace runs to one space; turn whitespace into hyphen;
collapse hyphen runs; trim; substitute "document" for an empty result;
truncate to 256 characters. -/
def sanitizeFileName (fileName : List Char) : List Char :=
  let nameWithoutExtension := stripPdfExt fileName
  let s1 := nameWithoutExtension.map fun c => if isSanitizeAllowed c then c else '-'
  let s2 := collapseRuns isJsSpace ' ' s1
  let s3 := s2.map fun c => if isJsSpace c then '-' else c
  let s4 := collapseRuns hyphenP '-' s3
  let s5 := trimChars s4
  let s6 := if s5.isEmpty then "document".toList else s5
  s6.take 256

/-- Absence of two adjacent characters of the class p. -/
def noTwoAdjacent (p : Char → Bool) : List Char → Bool
  | [] => true
  | [_] => true
  | a :: b :: rest => (!(p a && p b)) && noTwoAdjacent p (b :: rest)

theorem noTwoAdjacent_tail {p : Char → Bool} {x : Char} {l : List Char}
    (h : noTwoAdjacent p (x :: l) = true) : noTwoAdjacent p l = true := by
  cases l with
  | nil => rfl
  | cons y r => simp only [noTwoAdjacent, Bool.and_eq_true] at h; exact h.2

theorem noTwoAdjacent_of_all_false {p : Char → Bool} {l : List Char}
    (h : ∀ c ∈ l, p c = false) : noTwoAdjacent p l = true := by
  induction l with
  | nil => rfl
  | cons x rest ih =>
    cases rest with
    | nil => rfl
    | cons y r =>
      simp only [noTwoAdjacent, Bool.and_eq_true]
      refine ⟨?_, ih fun c hc => h c (List.mem_cons_of_mem _ hc)⟩
      simp [h x (List.mem_cons_self _ _)]

theorem noTwoAdjacent_take {p : Char → Bool} :
    ∀ (n : Nat) (l : List Char), noTwoAdjacent p l = true →
      noTwoAdjacent p (l.take n) = true := by
  intro n
  induction n with
  | zero => intro l _; rfl
  | succ m ih =>
    intro l h
    cases l with
    | nil => rfl
    | cons x rest =>
      cases rest with
      | nil => simpa using h
      | cons y r =>
        simp only [noTwoAdjacent, Bool.and_eq_true] at h
        cases m with
        | zero => rfl
        | succ k =>
          simp only [List.take_succ_cons, noTwoAdjacent, Bool.and_eq_true]
          refine ⟨h.1, ?_⟩
          have := ih (y :: r) h.2
          simpa [List.take_succ_cons] using this

theorem mem_collapseRunsAux {p : Char → Bool} {rep : Char}
    {l : List Char} {b : Bool} {c : Char} (h : c ∈ collapseRunsAux p rep b l) :
    c = rep ∨ (c ∈ l ∧ p c = false) := by
  induction l generalizing b with
  | nil => simp [collapseRunsAux] at h
  | cons x rest ih =>
    by_cases hx : p x = true
    · cases b with
      | true =>
        simp only [collapseRunsAux, hx, if_true] at h
        rcases ih h with h1 | ⟨h2, h3⟩
        · exact Or.inl h1
        · exact Or.inr ⟨List.mem_cons_of_mem _ h2, h3⟩
      | false =>
        simp only [collapseRunsAux, hx, if_true] at h
        rcases List.mem_cons.mp h with rfl | h0
        · exact Or.inl rfl
        · rcases ih h0 with h1 | ⟨h2, h3⟩
          · exact Or.inl h1
          · exact Or.inr ⟨List.mem_cons_of_mem _ h2, h3⟩
    · have hx0 : p x = false := by simpa using hx
      simp only [collapseRunsAux, hx0, Bool.false_eq_true, if_false] at h
      rcases List.mem_cons.mp h with rfl | h0
      · exact Or.inr ⟨List.mem_cons_self _ _, hx0⟩
      · rcases ih h0 with h1 | ⟨h2, h3⟩
        · exact Or.inl h1
        · exact Or.inr ⟨List.mem_cons_of_mem _ h2, h3⟩

theorem mem_collapseRuns {p : Char → Bool} {rep : Char} {l : List Char} {c : Char}
    (h : c ∈ collapseRuns p rep l) : c = rep ∨ (c ∈ l ∧ p c = false) :=
  mem_collapseRunsAux h

theorem head_collapseRunsAux_true {p : Char → Bool} {rep : Char}
    {l : List Char} {c : Char}
    (h : (collapseRunsAux p rep true l).head? = some c) : p c = false := by
  induction l with
  | nil => simp [collapseRunsAux] at h
  | cons x rest ih =>
    by_cases hx : p x = true
    · simp only [collapseRunsAux, hx, if_true] at h
      exact ih h
    · have hx0 : p x = false := by simpa using hx
      simp only [collapseRunsAux, hx0, Bool.false_eq_true, if_false, List.head?_cons,
        Option.some.injEq] at h
      exact h ▸ hx0

theorem noTwoAdjacent_collapseRunsAux {p : Char → Bool} {rep : Char}
    (l : List Char) : ∀ b, noTwoAdjacent p (collapseRunsAux p rep b l) = true := by
  induction l with
  | nil => intro b; rfl
  | cons x rest ih =>
    intro b
    by_cases hx : p x = true
    · cases b with
      | true => simpa only [collapseRunsAux, hx, if_true] using ih true
      | false =>
        simp only [collapseRunsAux, hx, if_true]
        cases hh : (collapseRunsAux p rep true rest).head? with
        | none =>
          have : collapseRunsAux p rep true rest = [] := by
            cases hr : collapseRunsAux p rep true rest with
            | nil => rfl
            | cons z zs => rw [hr] at hh; simp at hh
          rw [this]; rfl
        | some z =>
          have hz : p z = false := head_collapseRunsAux_true hh
          cases hr : collapseRunsAux p rep true rest with
          | nil => rfl
          | cons w ws =>
            rw [hr] at hh
            simp only [List.head?_cons, Option.some.injEq] at hh
            subst hh
            simp only [noTwoAdjacent, Bool.and_eq_true]
            constructor
            · simp [hz]
            · have := ih true
              rw [hr] at this
              exact this
    · have hx0 : p x = false := by simpa using hx
      simp only [collapseRunsAux, hx0, Bool.false_eq_true, if_false]
      cases hr : collapseRunsAux p rep false rest with
      | nil => rfl
      | cons w ws =>
        simp only [noTwoAdjacent, Bool.and_eq_true]
        constructor
        · simp [hx0]
        · have := ih false
          rw [hr] at this
          exact this

theorem noTwoAdjacent_collapseRuns {p : Char → Bool} {rep : Char} (l : List Char) :
    noTwoAdjacent p (collapseRuns p rep l) = true :=
  noTwoAdjacent_collapseRunsAux l false

theorem collapseRunsAux_id {p : Char → Bool} {rep : Char} {l : List Char}
    (hadj : noTwoAdjacent p l = true) (hrep : ∀ c ∈ l, p c = true → c = rep) :
    collapseRunsAux p rep false l = l ∧
      ((∀ c, l.head? = some c → p c = false) → collapseRunsAux p rep true l = l) := by
  induction l with
  | nil => exact ⟨rfl, fun _ => rfl⟩
  | cons x rest ih =>
    have hadjr : noTwoAdjacent p rest = true := noTwoAdjacent_tail hadj
    have hrepr : ∀ c ∈ rest, p c = true → c = rep :=
      fun c hc => hrep c (List.mem_cons_of_mem _ hc)
    obtain ⟨ih1, ih2⟩ := ih hadjr hrepr
    by_cases hx : p x = true
    · have hxrep : x = rep := hrep x (List.mem_cons_self _ _) hx
      subst hxrep
      constructor
      · simp only [collapseRunsAux, hx, if_true, Bool.false_eq_true, if_false]
        congr 1
        apply ih2
        intro c hc
        cases rest with
        | nil => simp at hc
        | cons y r =>
          simp only [List.head?_cons, Option.some.injEq] at hc
          subst hc
          simp only [noTwoAdjacent, Bool.and_eq_true] at hadj
          have h1 := hadj.1
          cases hy : p y with
          | false => rfl
          | true => rw [hx, hy] at h1; simp at h1
      · intro hhead
        have := hhead x (by simp)
        rw [hx] at this
        simp at this
    · have hx0 : p x = false := by simpa using hx
      constructor
      · simp only [collapseRunsAux, hx0, Bool.false_eq_true, if_false]
        rw [ih1]
      · intro _
        simp only [collapseRunsAux, hx0, Bool.false_eq_true, if_false]
        rw [ih1]

theorem collapseRuns_id {p : Char → Bool} {rep : Char} {l : List Char}
    (hadj : noTwoAdjacent p l = true) (hrep : ∀ c ∈ l, p c = true → c = rep) :
    collapseRuns p rep l = l :=
  (collapseRunsAux_id hadj hrep).1

theorem dropWhile_eq_self_of_false {p : Char → Bool} {l : List Char}
    (h : ∀ c ∈ l, p c = false) : l.dropWhile p = l := by
  cases l with
  | nil => rfl
  | cons x xs => simp [List.dropWhile_cons, h x (List.mem_cons_self _ _)]

theorem trimChars_eq_self {l : List Char}
    (h : ∀ c ∈ l, isJsSpace c = false) : trimChars l = l := by
  unfold trimChars
  rw [dropWhile_eq_self_of_false h,
      dropWhile_eq_self_of_false (fun c hc => h c (List.mem_reverse.mp hc)),
      List.reverse_reverse]

theorem map_id_of_mem {α : Type} {f : α → α} {l : List α}
    (h : ∀ c ∈ l, f c = c) : l.map f = l := by
  induction l with
  | nil => rfl
  | cons x xs ih =>
    simp only [List.map_cons, h x (List.mem_cons_self _ _)]
    rw [ih fun c hc => h c (List.mem_cons_of_mem _ hc)]

theorem mem_trimChars {l : List Char} {c : Char} (h : c ∈ trimChars l) : c ∈ l := by
  unfold trimChars at h
  rw [List.mem_reverse] at h
  have h1 : c ∈ (l.dropWhile isJsSpace).reverse :=
    (List.dropWhile_sublist _).subset h
  rw [List.mem_reverse] at h1
  exact (List.dropWhile_sublist _).subset h1

theorem allowed_of_sanitized {c : Char} (h : isSanitizedChar c = true) :
    isSanitizeAllowed c = true := by
  simp only [isSanitizedChar, Bool.or_eq_true, Bool.and_eq_true, decide_eq_true_eq] at h
  simp only [isSanitizeAllowed, Bool.or_eq_true, Bool.and_eq_true, decide_eq_true_eq]
  omega

theorem not_space_of_sanitized {c : Char} (h : isSanitizedChar c = true) :
    isJsSpace c = false := by
  cases hs : isJsSpace c with
  | false => rfl
  | true =>
    exfalso
    simp only [isSanitizedChar, Bool.or_eq_true, Bool.and_eq_true, decide_eq_true_eq] at h
    simp only [isJsSpace, Bool.or_eq_true, Bool.and_eq_true, decide_eq_true_eq] at hs
    omega

theorem sanitized_of_allowed_not_space {c : Char} (h1 : isSanitizeAllowed c = true)
    (h2 : isJsSpace c = false) : isSanitizedChar c = true := by
  simp only [isSanitizeAllowed, Bool.or_eq_true] at h1
  rw [h2] at h1
  simp only [Bool.false_eq_true, or_false, false_or] at h1
  simp only [Bool.and_eq_true, decide_eq_true_eq] at h1
  simp only [isSanitizedChar, Bool.or_eq_true, Bool.and_eq_true, decide_eq_true_eq]
  omega

/-- Every character of the run-collapse and replacement pipeline inside
sanitizeFileName is a sanitised character. -/
theorem sanitizeStages_mem (l : List Char) :
    ∀ c ∈ collapseRuns hyphenP '-'
        ((collapseRuns isJsSpace ' '
          (l.map fun c => if isSanitizeAllowed c then c else '-')).map
            fun c => if isJsSpace c then '-' else c),
      isSanitizedChar c = true := by
  intro c hc
  rcases mem_collapseRuns hc with rfl | ⟨hc3, _⟩
  · decide
  · rcases List.mem_map.mp hc3 with ⟨b, hb2, rfl⟩
    by_cases hsb : isJsSpace b = true
    · simp only [hsb, if_true]; decide
    · have hsb0 : isJsSpace b = false := by simpa using hsb
      simp only [hsb0, Bool.false_eq_true, if_false]
      rcases mem_collapseRuns hb2 with rfl | ⟨hb1, _⟩
      · exact absurd hsb0 (by decide)
      · rcases List.mem_map.mp hb1 with ⟨a, _, rfl⟩
        by_cases ha : isSanitizeAllowed a = true
        · simp only [ha, if_true] at hsb0 ⊢
          exact sanitized_of_allowed_not_space ha hsb0
        · have ha0 : isSanitizeAllowed a = false := by simpa using ha
          simp only [ha0, Bool.false_eq_true, if_false]
          decide

/-- Every character of a sanitised name is a sanitised character. -/
theorem sanitizeFileName_mem {x : List Char} :
    ∀ c ∈ sanitizeFileName x, isSanitizedChar c = true := by
  intro c hc
  simp only [sanitizeFileName] at hc
  have hc6 := List.mem_of_mem_take hc
  split at hc6
  · revert hc6
    have hdoc : ∀ d ∈ "document".toList, isSanitizedChar d = true := by decide
    exact hdoc c
  · exact sanitizeStages_mem (stripPdfExt x) c (mem_trimChars hc6)

/-- A sanitised name never has two adjacent hyphens. -/
theorem sanitizeFileName_noTwoAdjacent {x : List Char} :
    noTwoAdjacent hyphenP (sanitizeFileName x) = true := by
  simp only [sanitizeFileName]
  apply noTwoAdjacent_take
  split
  · decide
  · have hs4 : noTwoAdjacent hyphenP (collapseRuns hyphenP '-'
        ((collapseRuns isJsSpace ' '
          ((stripPdfExt x).map fun c => if isSanitizeAllowed c then c else '-')).map
            fun c => if isJsSpace c then '-' else c)) = true :=
      noTwoAdjacent_collapseRuns
        ((collapseRuns isJsSpace ' '
          ((stripPdfExt x).map fun c => if isSanitizeAllowed c then c else '-')).map
            fun c => if isJsSpace c then '-' else c)
    rw [trimChars_eq_self]
    · exact hs4
    · intro c hc
      exact not_space_of_sanitized (sanitizeStages_mem (stripPdfExt x) c hc)

/-- A sanitised name is never empty. -/
theorem sanitizeFileName_ne_nil {x : List Char} : sanitizeFileName x ≠ [] := by
  simp only [sanitizeFileName]
  split
  · decide
  · rename_i h
    intro habs
    have : ¬((trimChars (collapseRuns hyphenP '-'
        ((collapseRuns isJsSpace ' '
          ((stripPdfExt x).map fun c => if isSanitizeAllowed c then c else '-')).map
            fun c => if isJsSpace c then '-' else c))).isEmpty = true) := h
    cases hl : trimChars (collapseRuns hyphenP '-'
        ((collapseRuns isJsSpace ' '
          ((stripPdfExt x).map fun c => if isSanitizeAllowed c then c else '-')).map
            fun c => if isJsSpace c then '-' else c)) with
    | nil => rw [hl] at this; simp at this
    | cons y ys => rw [hl] at habs; simp at habs

/-- A sanitised name has at most 256 characters. -/
theorem sanitizeFileName_length_le {x : List Char} :
    (sanitizeFileName x).length ≤ 256 := by
  simp only [sanitizeFileName]
  rw [List.length_take]
  exact min_le_left _ _

/-- A list of sanitised characters with no adjacent hyphens, nonempty and
of length at most 256, is a fixed point of sanitizeFileName. -/
theorem sanitizeFileName_fixed {y : List Char}
    (hmem : ∀ c ∈ y, isSanitizedChar c = true)
    (hadj : noTwoAdjacent hyphenP y = true)
    (hne : y ≠ []) (hlen : y.length ≤ 256) : sanitizeFileName y = y := by
  have hnospace : ∀ c ∈ y, isJsSpace c = false :=
    fun c hc => not_space_of_sanitized (hmem c hc)
  have hstrip : stripPdfExt y = y := by
    unfold stripPdfExt
    split
    · rename_i f d p dot rest heq
      split
      · rename_i hcond
        exfalso
        simp only [Bool.and_eq_true, decide_eq_true_eq] at hcond
        have hdot : dot ∈ y.reverse := by rw [heq]; simp
        rw [List.mem_reverse] at hdot
        have := hmem dot hdot
        rw [hcond.1.1.1] at this
        exact absurd this (by decide)
      · rfl
    · rfl
  rw [sanitizeFileName, hstrip]
  have hmap1 : (y.map fun c => if isSanitizeAllowed c then c else '-') = y :=
    map_id_of_mem fun c hc => by simp [allowed_of_sanitized (hmem c hc)]
  rw [hmap1]
  have hcol1 : collapseRuns isJsSpace ' ' y = y :=
    collapseRuns_id (noTwoAdjacent_of_all_false hnospace)
      (fun c hc hp => absurd (hnospace c hc) (by simp [hp]))
  rw [hcol1]
  have hmap2 : (y.map fun c => if isJsSpace c then '-' else c) = y :=
    map_id_of_mem fun c hc => by simp [hnospace c hc]
  rw [hmap2]
  have hcol2 : collapseRuns hyphenP '-' y = y :=
    collapseRuns_id hadj (fun c _ hp => by
      simpa [hyphenP, decide_eq_true_eq] using hp)
  rw [hcol2]
  rw [trimChars_eq_self hnospace]
  have hne2 : y.isEmpty = false := by
    cases y with
    | nil => exact absurd rfl hne
    | cons a l => rfl
  rw [hne2]
  simp only [Bool.false_eq_true, if_false]
  exact List.take_of_length_le hlen

/-- C1: filename sanitization is idempotent: for every input string x,
sanitizeFileName (sanitizeFileName x) equals sanitizeFileName x. -/
theorem sanitizeFileName_idempotent (x : List Char) :
    sanitizeFileName (sanitizeFileName x) = sanitizeFileName x :=
  sanitizeFileName_fixed sanitizeFileName_mem sanitizeFileName_noTwoAdjacent
    sanitizeFileName_ne_nil sanitizeFileName_length_le

/-- C2 counterexample: on the fixed input "Report (Final)!.pdf" the code
yields "Report-(Final)-" with a trailing hyphen, not "Report-(Final)":
the trim step removes only whitespace and runs after every space has
already been turned into a hyphen, so no step removes a trailing hyphen. -/
theorem sanitizeFileName_report_trailing_hyphen :
    sanitizeFileName "Report (Final)!.pdf".toList = "Report-(Final)-".toList ∧
      "Report-(Final)-".toList ≠ "Report-(Final)".toList := by
  exact ⟨by decide, by decide⟩

/-- C2 amended: for the fixed input "Report (Final)!.pdf", sanitizeFileName
returns exactly "Report-(Final)-": the exclamation mark becomes a hyphen
and that trailing hyphen is kept by the trim and collapse steps. -/
theorem sanitizeFileName_report_exact :
    sanitizeFileName "Report (Final)!.pdf".toList = "Report-(Final)-".toList := by
  decide

/-- C3: for every input string, the result of sanitizeFileName has length
at most 256 characters and is never the empty string. -/
theorem sanitizeFileName_bounds (x : List Char) :
    (sanitizeFileName x).length ≤ 256 ∧ sanitizeFileName x ≠ [] :=
  ⟨sanitizeFileName_length_le, sanitizeFileName_ne_nil⟩

example : sanitizeFileName "".toList = "document".toList := by decide
example : sanitizeFileName "  a   b .PDF".toList = "-a-b-".toList := by decide
example : sanitizeFileName "日本語.pdf".toList = "-".toList := by decide

/-- Character i of the base64 alphabet used by btoa. -/
def b64Char (i : Nat) : Char :=
  "ABCDEFGHIJKLMNOPQRSTUVWXYZabcdefghijklmnopqrstuvwxyz0123456789+/".toList.getD i 'A'

/-- JavaScript btoa applied to the binary string holding the given byte
values: each group of three bytes becomes four base64 characters, with
equals-sign padding for a final group of one or two bytes. -/
def btoaBytes : List Nat → List Char
  | [] => []
  | [a] => [b64Char (a / 4), b64Char (a % 4 * 16), '=', '=']
  | [a, b] => [b64Char (a / 4), b64Char (a % 4 * 16 + b / 16), b64Char (b % 16 * 4), '=']
  | a :: b :: c :: rest =>
    b64Char (a / 4) :: b64Char (a % 4 * 16 + b / 16) ::
      b64Char (b % 16 * 4 + c / 64) :: b64Char (c % 64) :: btoaBytes rest

/-- The arrayBufferToBase64 function of App.tsx: build the binary string
from the bytes of the buffer with String.fromCharCode and encode it with
btoa. -/
def arrayBufferToBase64 (bytes : List Nat) : List Char := btoaBytes bytes

/-- Position of a character in the base64 alphabet, the inverse lookup
performed by atob. -/
def b64Index (c : Char) : Nat :=
  if 'A' ≤ c ∧ c ≤ 'Z' then c.toNat - 65
  else if 'a' ≤ c ∧ c ≤ 'z' then c.toNat - 97 + 26
  else if '0' ≤ c ∧ c ≤ '9' then c.toNat - 48 + 52
  else if c = '+' then 62
  else if c = '/' then 63
  else 0

/-- JavaScript atob followed by charCodeAt on each character of the
resulting binary string, as used on the stored document bytes when the
conversation history is rebuilt for the next request. -/
def atobBytes : List Char → List Nat
  | c1 :: c2 :: c3 :: c4 :: rest =>
    let n1 := b64Index c1
    let n2 := b64Index c2
    if c3 = '=' then [n1 * 4 + n2 / 16]
    else
      let n3 := b64Index c3
      if c4 = '=' then [n1 * 4 + n2 / 16, n2 % 16 * 16 + n3 / 4]
      else (n1 * 4 + n2 / 16) :: (n2 % 16 * 16 + n3 / 4) ::
        (n3 % 4 * 64 + b64Index c4) :: atobBytes rest
  | _ => []

theorem b64Index_b64Char {i : Nat} (h : i < 64) : b64Index (b64Char i) = i := by
  have hall : ∀ j : Fin 64, b64Index (b64Char j.val) = j.val := by decide
  exact hall ⟨i, h⟩

theorem b64Char_ne_pad {i : Nat} (h : i < 64) : ¬(b64Char i = '=') := by
  have hall : ∀ j : Fin 64, ¬(b64Char j.val = '=') := by decide
  exact hall ⟨i, h⟩

/-- Decoding inverts encoding on byte lists. -/
theorem atobBytes_btoaBytes (l : List Nat) (h : ∀ b ∈ l, b < 256) :
    atobBytes (btoaBytes l) = l := by
  match l with
  | [] => rfl
  | [a] =>
    have ha : a < 256 := h a (by simp)
    have h1 : a / 4 < 64 := by omega
    have h2 : a % 4 * 16 < 64 := by omega
    simp only [btoaBytes, atobBytes]
    rw [if_pos trivial, b64Index_b64Char h1, b64Index_b64Char h2]
    have : a / 4 * 4 + a % 4 * 16 / 16 = a := by omega
    rw [this]
  | [a, b] =>
    have ha : a < 256 := h a (by simp)
    have hb : b < 256 := h b (by simp)
    have h1 : a / 4 < 64 := by omega
    have h2 : a % 4 * 16 + b / 16 < 64 := by omega
    have h3 : b % 16 * 4 < 64 := by omega
    simp only [btoaBytes, atobBytes]
    rw [if_neg (b64Char_ne_pad h3), if_pos trivial,
      b64Index_b64Char h1, b64Index_b64Char h2, b64Index_b64Char h3]
    have e1 : a / 4 * 4 + (a % 4 * 16 + b / 16) / 16 = a := by omega
    have e2 : (a % 4 * 16 + b / 16) % 16 * 16 + b % 16 * 4 / 4 = b := by omega
    rw [e1, e2]
  | a :: b :: c :: rest2 =>
    have ha : a < 256 := h a (by simp)
    have hb : b < 256 := h b (by simp)
    have hc : c < 256 := h c (by simp)
    have h1 : a / 4 < 64 := by omega
    have h2 : a % 4 * 16 + b / 16 < 64 := by omega
    have h3 : b % 16 * 4 + c / 64 < 64 := by omega
    have h4 : c % 64 < 64 := by omega
    have ih := atobBytes_btoaBytes rest2
      (fun x hx => h x (List.mem_cons_of_mem _
        (List.mem_cons_of_mem _ (List.mem_cons_of_mem _ hx))))
    simp only [btoaBytes, atobBytes]
    rw [if_neg (b64Char_ne_pad h3), if_neg (b64Char_ne_pad h4),
      b64Index_b64Char h1, b64Index_b64Char h2, b64Index_b64Char h3,
      b64Index_b64Char h4]
    have e1 : a / 4 * 4 + (a % 4 * 16 + b / 16) / 16 = a := by omega
    have e2 : (a % 4 * 16 + b / 16) % 16 * 16 + (b % 16 * 4 + c / 64) / 4 = b := by omega
    have e3 : (b % 16 * 4 + c / 64) % 4 * 64 + c % 64 = c := by omega
    rw [e1, e2, e3, ih]

/-- Role of a chat message, the ConversationRole of the client library. -/
inductive Role where
  | user
  | assistant
deriving DecidableEq

/-- The stored document part of a CustomMessage: sanitised name, format
tag, base64-encoded bytes, and the display name shown in the UI. -/
structure StoredDoc where
  name : List Char
  format : List Char
  bytes : List Char
  displayName : List Char
deriving DecidableEq

/-- Content of a CustomMessage: plain text, text plus one document, or a
document alone, as in the union type of App.tsx. -/
inductive MsgContent where
  | text (s : List Char)
  | textDoc (s : List Char) (d : StoredDoc)
  | doc (d : StoredDoc)
deriving DecidableEq

/-- A CustomMessage of App.tsx: identifier, role and content. -/
structure CustomMessage where
  id : List Char
  role : Role
  content : MsgContent
deriving DecidableEq

/-- One content block of the converse request. -/
inductive CBlock where
  | text (s : List Char)
  | document (name : List Char) (format : List Char) (bytes : List Nat)
deriving DecidableEq

/-- One message of the converse request. -/
structure ConverseMsg where
  role : Role
  content : List CBlock
deriving DecidableEq

/-- A selected file: its name and the bytes that reading it will produce,
where none models a file whose arrayBuffer call fails. -/
structure FileInfo where
  name : List Char
  readResult : Option (List Nat)
deriving DecidableEq

/-- The component state of App: the text input, the loading flag, the
pending attachment, the message list, and how many identifiers have been
drawn from the random source so far. -/
structure AppState where
  input : List Char
  isLoading : Bool
  file : Option FileInfo
  messages : List CustomMessage
  rndCtr : Nat
deriving DecidableEq

/-- Outcome of one converse stream: the text deltas received in order,
then either normal completion (err = none) or a caught failure carrying
an optional error message (err = some m). -/
structure StreamOutcome where
  deltas : List (List Char)
  err : Option (Option (List Char))
deriving DecidableEq

/-- The fixed default instruction substituted for empty text. -/
def defaultPdfPrompt : List Char :=
  "Please summarize the content of this PDF.".toList

/-- The message of the file-processing catch. -/
def fileErrorText : List Char := "ERROR: Failed to process PDF file.".toList

/-- The generic fallback of the stream catch. -/
def streamFallbackText : List Char := "Failed to get stream data.".toList

/-- Content of the error turn of the stream catch: the error message when
one is available, else the generic fallback, behind the fixed marker. -/
def streamErrorText (m : Option (List Char)) : List Char :=
  "ERROR: ".toList ++ m.getD streamFallbackText

/-- Translation of one stored message into the converse shape, as in the
history map of handleSubmit: plain text becomes one text block; text plus
document becomes a text block then a document block with the name
re-sanitised and the bytes decoded from their stored base64 form; a
document alone becomes the fixed default instruction block then the same
document block. -/
def toConverse (msg : CustomMessage) : ConverseMsg :=
  match msg.content with
  | .text s => ⟨msg.role, [.text s]⟩
  | .textDoc s d =>
    ⟨msg.role,
      [.text s, .document (sanitizeFileName d.name) d.format (atobBytes d.bytes)]⟩
  | .doc d =>
    ⟨msg.role,
      [.text defaultPdfPrompt,
       .document (sanitizeFileName d.name) d.format (atobBytes d.bytes)]⟩

/-- Result of the synchronous part of handleSubmit: an empty submission
that returns without any state change; the file-processing catch; or a
dispatched request, carrying the state at the moment the stream is
awaited, the id of the open assistant turn, and the request payload. -/
inductive Phase1 where
  | noop
  | fileError (st1 : AppState)
  | dispatched (st1 : AppState) (aiId : List Char) (payload : List ConverseMsg)
deriving DecidableEq

/-- The synchronous part of handleSubmit, in source order: derive the
effective prompt (default instruction when a file is attached and the
trimmed input is empty); read and encode the attached file, landing in
the catch on failure; return when no content was derived; append the user
turn and the empty assistant turn; clear input and attachment; set the
loading flag; translate the previous messages and append the new user
content to form the payload. -/
def submitPhase1 (rnd : Nat → List Char) (st : AppState) : Phase1 :=
  let trimmed := trimChars st.input
  let defaultPrompt :=
    if st.file.isSome && trimmed.isEmpty then defaultPdfPrompt else trimmed
  let content0 : List CBlock :=
    if defaultPrompt.isEmpty then [] else [.text defaultPrompt]
  match st.file with
  | none =>
    if content0.isEmpty then .noop
    else
      let userMessage : CustomMessage := ⟨rnd st.rndCtr, .user, .text defaultPrompt⟩
      let aiId := rnd (st.rndCtr + 1)
      .dispatched
        { st with
          messages := st.messages ++ [userMessage, ⟨aiId, .assistant, .text []⟩],
          input := [], file := none, isLoading := true, rndCtr := st.rndCtr + 2 }
        aiId
        (st.messages.map toConverse ++ [⟨.user, content0⟩])
  | some f =>
    match f.readResult with
    | none =>
      .fileError
        { st with
          messages := st.messages ++
            [⟨rnd st.rndCtr, .assistant, .text fileErrorText⟩],
          file := none, isLoading := false, rndCtr := st.rndCtr + 1 }
    | some bytes =>
      let sanitized := sanitizeFileName f.name
      let pdfBase64 := arrayBufferToBase64 bytes
      let display := sanitized ++ ".pdf".toList
      let content := content0 ++ [.document sanitized "pdf".toList bytes]
      let storedDoc : StoredDoc := ⟨sanitized, "pdf".toList, pdfBase64, display⟩
      let userMessage : CustomMessage :=
        ⟨rnd st.rndCtr, .user,
          if trimmed.isEmpty then .doc storedDoc
          else .textDoc defaultPrompt storedDoc⟩
      let aiId := rnd (st.rndCtr + 1)
      .dispatched
        { st with
          messages := st.messages ++ [userMessage, ⟨aiId, .assistant, .text []⟩],
          input := [], file := none, isLoading := true, rndCtr := st.rndCtr + 2 }
        aiId
        (st.messages.map toConverse ++ [⟨.user, content⟩])

/-- One delta application: the setMessages map that replaces the content
of every message whose id equals the open assistant id by the accumulated
text. -/
def applyDelta (aiId : List Char) (streamed : List Char)
    (msgs : List CustomMessage) : List CustomMessage :=
  msgs.map fun m => if m.id = aiId then { m with content := .text streamed } else m

/-- The stream loop of handleSubmit: each truthy (nonempty) text delta is
appended to the accumulated text and the messages are updated; falsy
deltas are skipped. -/
def runDeltas (aiId : List Char) :
    List Char → List CustomMessage → List (List Char) →
      List Char × List CustomMessage
  | acc, msgs, [] => (acc, msgs)
  | acc, msgs, d :: rest =>
    if d.isEmpty then runDeltas aiId acc msgs rest
    else runDeltas aiId (acc ++ d) (applyDelta aiId (acc ++ d) msgs) rest

/-- The whole handleSubmit of App.tsx for one submission cycle, driven by
the given random-id source and stream outcome: the synchronous phase,
then the stream loop, then the catch that appends the error turn, then
the finally that clears the loading flag. -/
def handleSubmit (rnd : Nat → List Char) (stream : StreamOutcome)
    (st : AppState) : AppState :=
  match submitPhase1 rnd st with
  | .noop => st
  | .fileError st1 => st1
  | .dispatched st1 aiId _payload =>
    let msgs2 := (runDeltas aiId [] st1.messages stream.deltas).2
    let st2 := { st1 with messages := msgs2 }
    let st3 :=
      match stream.err with
      | none => st2
      | some m =>
        { st2 with
          messages := st2.messages ++
            [CustomMessage.mk (rnd st1.rndCtr) .assistant
              (.text (streamErrorText m))],
          rndCtr := st1.rndCtr + 1 }
    { st3 with isLoading := false }

/-- The submit event of the form: while the loading flag is set, the text
input, the file input and the submit button are all disabled, so the
event never reaches handleSubmit. -/
def submitEvent (rnd : Nat → List Char) (stream : StreamOutcome)
    (st : AppState) : AppState :=
  if st.isLoading then st else handleSubmit rnd stream st

example :
    (handleSubmit (fun _ => ['x']) (StreamOutcome.mk [] (some none))
      (AppState.mk "hi".toList false none [] 0)).messages.length = 3 := by decide

example :
    (handleSubmit (fun n => [Char.ofNat (97 + n)])
      (StreamOutcome.mk ["ab".toList, "cd".toList] none)
      (AppState.mk "hi".toList false none [] 0)).messages =
      [CustomMessage.mk ['a'] .user (.text "hi".toList),
       CustomMessage.mk ['b'] .assistant (.text "abcd".toList)] := by decide

/-- Inversion of a dispatch: the mid-flight state has the loading flag
set, cleared input and attachment, a counter advanced by two, and the
messages extended by the user turn and the fresh empty assistant turn. -/
theorem dispatched_shape {rnd : Nat → List Char} {st st1 : AppState}
    {aiId : List Char} {payload : List ConverseMsg}
    (h : submitPhase1 rnd st = .dispatched st1 aiId payload) :
    aiId = rnd (st.rndCtr + 1) ∧ st1.rndCtr = st.rndCtr + 2 ∧
    st1.isLoading = true ∧ st1.input = [] ∧ st1.file = none ∧
    ∃ u : CustomMessage,
      st1.messages = st.messages ++
        [u, CustomMessage.mk aiId .assistant (.text [])] ∧
      u.id = rnd st.rndCtr ∧ u.role = .user := by
  rcases hf : st.file with _ | f
  · simp only [submitPhase1, hf, Option.isSome_none, Bool.false_and,
      Bool.false_eq_true, if_false] at h
    by_cases ht : (trimChars st.input).isEmpty = true
    · rw [if_pos ht] at h
      simp at h
    · rw [if_neg ht, if_neg (by simp)] at h
      rw [Phase1.dispatched.injEq] at h
      obtain ⟨h1, h2, _⟩ := h
      subst h1; subst h2
      exact ⟨rfl, rfl, rfl, rfl, rfl, _, rfl, rfl, rfl⟩
  · rcases hr : f.readResult with _ | bytes
    · simp only [submitPhase1, hf, hr] at h
      exact absurd h (by simp)
    · simp only [submitPhase1, hf, hr] at h
      rw [Phase1.dispatched.injEq] at h
      obtain ⟨h1, h2, _⟩ := h
      subst h1; subst h2
      exact ⟨rfl, rfl, rfl, rfl, rfl, _, rfl, rfl, rfl⟩

/-- Inversion of the empty submission: no text and no file means noop. -/
theorem submitPhase1_noop {rnd : Nat → List Char} {st : AppState}
    (hf : st.file = none) (ht : trimChars st.input = []) :
    submitPhase1 rnd st = .noop := by
  simp [submitPhase1, hf, ht]

/-- The file-processing catch: with an attached file whose read fails,
handleSubmit appends exactly the fixed error turn, clears the attachment,
leaves the input as it was, and ends with the loading flag cleared. -/
theorem handleSubmit_fileRead_fail (rnd : Nat → List Char)
    (stream : StreamOutcome) (st : AppState) (f : FileInfo)
    (hf : st.file = some f) (hr : f.readResult = none) :
    handleSubmit rnd stream st =
      { st with
        messages := st.messages ++
          [CustomMessage.mk (rnd st.rndCtr) .assistant (.text fileErrorText)],
        file := none, isLoading := false, rndCtr := st.rndCtr + 1 } := by
  have h1 : submitPhase1 rnd st = .fileError
      { st with
        messages := st.messages ++
          [CustomMessage.mk (rnd st.rndCtr) .assistant (.text fileErrorText)],
        file := none, isLoading := false, rndCtr := st.rndCtr + 1 } := by
    simp [submitPhase1, hf, hr]
  simp [handleSubmit, h1]

/-- Random-id source used by the concrete checks: distinct lowercase
letters. -/
def wRnd : Nat → List Char := fun n => [Char.ofNat (97 + n)]

/-- Stream outcome used by the concrete checks: no delta, then a caught
failure without a message. -/
def wStream : StreamOutcome := StreamOutcome.mk [] (some none)

/-- Idle state with typed text and no attachment. -/
def wSt0 : AppState := AppState.mk "hi".toList false none [] 0

/-- The mid-flight state the dispatch of wSt0 produces. -/
def wSt1 : AppState :=
  AppState.mk [] true none
    [CustomMessage.mk ['a'] .user (.text "hi".toList),
     CustomMessage.mk ['b'] .assistant (.text [])] 2

/-- The payload the dispatch of wSt0 produces. -/
def wPayload : List ConverseMsg := [ConverseMsg.mk .user [.text "hi".toList]]

/-- An attachment whose read fails. -/
def wFileBad : FileInfo := FileInfo.mk "a.pdf".toList none

/-- Idle state with typed text and a failing attachment. -/
def wStBad : AppState := AppState.mk "keep me".toList false (some wFileBad) [] 0

/-- C4: the state reached by a dispatch has the loading flag set, and the
submit event on any state with the loading flag set is rejected by the
disabled input surface: the state, and so the Conversation length, is
unchanged by the second call. -/
theorem awaiting_rejects_second_submit
    (rnd rnd2 : Nat → List Char) (stream2 : StreamOutcome)
    (st st1 : AppState) (aiId : List Char) (payload : List ConverseMsg)
    (hdisp : submitPhase1 rnd st = .dispatched st1 aiId payload) :
    st1.isLoading = true ∧ submitEvent rnd2 stream2 st1 = st1 ∧
      (submitEvent rnd2 stream2 st1).messages.length = st1.messages.length := by
  have hload := (dispatched_shape hdisp).2.2.1
  refine ⟨hload, ?_, ?_⟩ <;> simp [submitEvent, hload]

theorem awaiting_rejects_second_submit_witness :
    wSt1.isLoading = true ∧ submitEvent wRnd wStream wSt1 = wSt1 ∧
      (submitEvent wRnd wStream wSt1).messages.length = wSt1.messages.length :=
  awaiting_rejects_second_submit wRnd wRnd wStream wSt0 wSt1 ['b'] wPayload
    (by decide)

/-- C10: when reading the attached file fails during submit, the
Conversation gains exactly one new turn, the assistant error turn, and no
user turn; the pending attachment is cleared; the typed input text is
left unchanged; and the loading flag ends cleared. -/
theorem fileRead_fail_effects
    (rnd : Nat → List Char) (stream : StreamOutcome) (st : AppState)
    (f : FileInfo) (hf : st.file = some f) (hr : f.readResult = none) :
    (handleSubmit rnd stream st).messages =
      st.messages ++
        [CustomMessage.mk (rnd st.rndCtr) .assistant (.text fileErrorText)] ∧
    (handleSubmit rnd stream st).input = st.input ∧
    (handleSubmit rnd stream st).file = none ∧
    (handleSubmit rnd stream st).isLoading = false := by
  rw [handleSubmit_fileRead_fail rnd stream st f hf hr]
  exact ⟨rfl, rfl, rfl, rfl⟩

theorem fileRead_fail_effects_witness :
    (handleSubmit wRnd wStream wStBad).messages =
      wStBad.messages ++
        [CustomMessage.mk (wRnd wStBad.rndCtr) .assistant (.text fileErrorText)] ∧
    (handleSubmit wRnd wStream wStBad).input = wStBad.input ∧
    (handleSubmit wRnd wStream wStBad).file = none ∧
    (handleSubmit wRnd wStream wStBad).isLoading = false :=
  fileRead_fail_effects wRnd wStream wStBad wFileBad rfl rfl

/-- C5 counterexample: a file-read failure is a failure of the submission
cycle, yet the cycle ends with exactly one turn, the error turn, and the
Conversation holds no empty assistant turn at all: the error turn was not
appended in addition to an empty assistant turn of that cycle. -/
theorem failure_error_turn_single :
    (handleSubmit wRnd wStream wStBad).messages =
      [CustomMessage.mk ['a'] .assistant (.text fileErrorText)] ∧
    ¬ ∃ m ∈ (handleSubmit wRnd wStream wStBad).messages,
        m.content = MsgContent.text [] := by decide

/-- C5 amended: a failure after dispatch appends one new assistant error
turn carrying the fixed prefix and the failure message, or the generic
fallback when none is available, after the turns reached by the delta
loop, and the loading flag ends cleared; when no delta arrived, the empty
assistant turn of the cycle is still present directly before the error
turn.  A file-read failure instead appends only its own error turn, and
no empty assistant turn exists in that cycle. -/
theorem failure_appends_error_turn
    (rnd : Nat → List Char) (stream : StreamOutcome) (st st1 : AppState)
    (aiId : List Char) (payload : List ConverseMsg) (m : Option (List Char))
    (hdisp : submitPhase1 rnd st = .dispatched st1 aiId payload)
    (herr : stream.err = some m) :
    (handleSubmit rnd stream st).messages =
      (runDeltas aiId [] st1.messages stream.deltas).2 ++
        [CustomMessage.mk (rnd (st.rndCtr + 2)) .assistant
          (.text (streamErrorText m))] ∧
    (handleSubmit rnd stream st).isLoading = false ∧
    (stream.deltas = [] →
      ∃ u : CustomMessage,
        (handleSubmit rnd stream st).messages =
          st.messages ++
            [u, CustomMessage.mk aiId .assistant (.text []),
             CustomMessage.mk (rnd (st.rndCtr + 2)) .assistant
               (.text (streamErrorText m))]) := by
  obtain ⟨haid, hctr, hload, hinp, hfile, u, hmsgs, huid, hurole⟩ :=
    dispatched_shape hdisp
  simp only [handleSubmit, hdisp, herr, hctr]
  refine ⟨trivial, trivial, ?_⟩
  intro hdel
  refine ⟨u, ?_⟩
  rw [hdel]
  simp only [runDeltas, hmsgs, List.append_assoc, List.cons_append,
    List.nil_append, List.singleton_append]

theorem failure_appends_error_turn_witness :
    (handleSubmit wRnd wStream wSt0).messages =
      (runDeltas ['b'] [] wSt1.messages wStream.deltas).2 ++
        [CustomMessage.mk (wRnd (wSt0.rndCtr + 2)) .assistant
          (.text (streamErrorText none))] ∧
    (handleSubmit wRnd wStream wSt0).isLoading = false ∧
    (wStream.deltas = [] →
      ∃ u : CustomMessage,
        (handleSubmit wRnd wStream wSt0).messages =
          wSt0.messages ++
            [u, CustomMessage.mk ['b'] .assistant (.text []),
             CustomMessage.mk (wRnd (wSt0.rndCtr + 2)) .assistant
               (.text (streamErrorText none))]) :=
  failure_appends_error_turn wRnd wStream wSt0 wSt1 ['b'] wPayload none
    (by decide) rfl

theorem defaultPdfPrompt_ne_empty : defaultPdfPrompt.isEmpty = false := by decide

/-- C7: submit derives its effective content as specified: with an
attached readable file and whitespace-only raw text, the fixed default
instruction is substituted as the effective text of the dispatched
request; with neither nonempty text nor a file, submit is a no-op and the
state, hence the Conversation length, is unchanged. -/
theorem submit_effective_content (rnd : Nat → List Char)
    (stream : StreamOutcome) (st : AppState) :
    (∀ f bytes, st.file = some f → f.readResult = some bytes →
      trimChars st.input = [] →
      ∃ st1, submitPhase1 rnd st =
        .dispatched st1 (rnd (st.rndCtr + 1))
          (st.messages.map toConverse ++
            [ConverseMsg.mk .user
              [.text defaultPdfPrompt,
               .document (sanitizeFileName f.name) "pdf".toList bytes]])) ∧
    (st.file = none → trimChars st.input = [] →
      handleSubmit rnd stream st = st) := by
  constructor
  · intro f bytes hf hr ht
    simp only [submitPhase1, hf, hr, ht, Option.isSome_some, Bool.true_and,
      List.isEmpty_nil, if_true, defaultPdfPrompt_ne_empty, Bool.false_eq_true,
      if_false, List.singleton_append, List.cons_append, List.nil_append]
    exact ⟨_, rfl⟩
  · intro hf ht
    simp [handleSubmit, submitPhase1_noop hf ht]

/-- An attachment whose read succeeds with three bytes. -/
def wFileOk : FileInfo := FileInfo.mk "x!.pdf".toList (some [1, 2, 3])

/-- Idle state with empty text and a readable attachment. -/
def wStFile : AppState := AppState.mk [] false (some wFileOk) [] 0

/-- Idle state with whitespace-only text and no attachment. -/
def wStNoop : AppState := AppState.mk "   ".toList false none [] 0

theorem submit_effective_content_witness :
    (∃ st1, submitPhase1 wRnd wStFile =
      .dispatched st1 (wRnd (wStFile.rndCtr + 1))
        (wStFile.messages.map toConverse ++
          [ConverseMsg.mk .user
            [.text defaultPdfPrompt,
             .document (sanitizeFileName wFileOk.name) "pdf".toList
               [1, 2, 3]]])) ∧
    handleSubmit wRnd wStream wStNoop = wStNoop :=
  ⟨(submit_effective_content wRnd wStream wStFile).1 wFileOk [1, 2, 3]
      rfl rfl rfl,
   (submit_effective_content wRnd wStream wStNoop).2 rfl (by decide)⟩

/-- One delta application on a list holding exactly one message with the
open id: only that message changes, to the accumulated text. -/
theorem applyDelta_unique (aiId i : List Char) (r : Role) (c : MsgContent)
    (s : List Char) {pre post : List CustomMessage}
    (hpre : ∀ m ∈ pre, m.id ≠ aiId) (hpost : ∀ m ∈ post, m.id ≠ aiId)
    (hid : i = aiId) :
    applyDelta aiId s (pre ++ CustomMessage.mk i r c :: post) =
      pre ++ CustomMessage.mk i r (.text s) :: post := by
  unfold applyDelta
  rw [List.map_append, List.map_cons]
  rw [map_id_of_mem fun m hm => by simp [hpre m hm]]
  rw [map_id_of_mem fun m hm => by simp [hpost m hm]]
  simp [hid]

/-- The delta loop on a list holding exactly one message with the open
id: the loop concatenates all deltas onto the accumulator and onto that
message content, leaving every other message unchanged. -/
theorem runDeltas_spec (aiId i : List Char) (r : Role)
    {pre post : List CustomMessage}
    (hpre : ∀ m ∈ pre, m.id ≠ aiId) (hpost : ∀ m ∈ post, m.id ≠ aiId)
    (hid : i = aiId) :
    ∀ (deltas : List (List Char)) (acc : List Char),
      runDeltas aiId acc
        (pre ++ CustomMessage.mk i r (.text acc) :: post) deltas =
      (acc ++ deltas.flatten,
       pre ++ CustomMessage.mk i r (.text (acc ++ deltas.flatten)) :: post) := by
  intro deltas
  induction deltas with
  | nil => intro acc; simp [runDeltas]
  | cons d rest ih =>
    intro acc
    by_cases hd : d.isEmpty = true
    · have hdnil : d = [] := List.isEmpty_iff.mp hd
      subst hdnil
      simp only [runDeltas, List.isEmpty_nil, if_true, List.flatten_cons,
        List.nil_append]
      exact ih acc
    · have hd0 : d.isEmpty = false := by simpa using hd
      simp only [runDeltas, hd0, Bool.false_eq_true, if_false]
      rw [applyDelta_unique aiId i r (.text acc) (acc ++ d) hpre hpost hid]
      rw [ih (acc ++ d)]
      simp [List.flatten_cons, List.append_assoc]

/-- C6: after processing the first k text deltas of one submission, in
arrival order, the open assistant turn content equals the concatenation
of exactly those deltas in that order — so every intermediate state
carries the corresponding initial segment of the stream, and the full run
carries the whole concatenation — while every other turn of the
Conversation is unchanged at every step. -/
theorem stream_deltas_concatenate
    (aiId : List Char) (pre post : List CustomMessage) (opn : CustomMessage)
    (deltas : List (List Char)) (k : Nat)
    (hpre : ∀ m ∈ pre, m.id ≠ aiId) (hpost : ∀ m ∈ post, m.id ≠ aiId)
    (hid : opn.id = aiId) (hopen : opn.content = .text []) :
    (runDeltas aiId [] (pre ++ opn :: post) (deltas.take k)).2 =
      pre ++ CustomMessage.mk opn.id opn.role
        (.text (deltas.take k).flatten) :: post := by
  obtain ⟨i, r, c⟩ := opn
  have hc : c = MsgContent.text [] := hopen
  subst hc
  have hid2 : i = aiId := hid
  rw [runDeltas_spec aiId i r hpre hpost hid2 (deltas.take k) []]
  simp

/-- The prior user turn used by the concrete checks. -/
def wPre : List CustomMessage := [CustomMessage.mk ['a'] .user (.text "hi".toList)]

/-- The open assistant turn used by the concrete checks. -/
def wOpn : CustomMessage := CustomMessage.mk ['b'] .assistant (.text [])

/-- The stream deltas of the concrete checks. -/
def wDeltas : List (List Char) := ["Hel".toList, "lo".toList, " world".toList]

theorem stream_deltas_concatenate_witness :
    (runDeltas ['b'] [] (wPre ++ wOpn :: []) (wDeltas.take 2)).2 =
      wPre ++ CustomMessage.mk wOpn.id wOpn.role
        (.text (wDeltas.take 2).flatten) :: [] :=
  stream_deltas_concatenate ['b'] wPre [] wOpn wDeltas 2
    (by decide) (by decide) rfl rfl

/-- C8: history re-serialisation round-trips document bytes exactly: for
a document-bearing turn whose stored bytes came from arrayBufferToBase64
applied to the raw bytes read at submit time, the document block built
for the next request carries byte-for-byte those raw bytes — decoding
after encoding is the identity on byte arrays. -/
theorem history_roundtrip_bytes (msg : CustomMessage) (s : List Char)
    (d : StoredDoc) (raw : List Nat) (hbytes : ∀ b ∈ raw, b < 256)
    (henc : d.bytes = arrayBufferToBase64 raw)
    (hcontent : msg.content = .textDoc s d ∨ msg.content = .doc d) :
    ∃ t : List Char, (toConverse msg).content =
      [CBlock.text t,
       CBlock.document (sanitizeFileName d.name) d.format raw] := by
  rcases hcontent with h | h
  · exact ⟨s, by
      simp [toConverse, h, henc, arrayBufferToBase64,
        atobBytes_btoaBytes raw hbytes]⟩
  · exact ⟨defaultPdfPrompt, by
      simp [toConverse, h, henc, arrayBufferToBase64,
        atobBytes_btoaBytes raw hbytes]⟩

/-- A stored document whose bytes encode the raw bytes 0, 255, 16. -/
def wDoc : StoredDoc :=
  StoredDoc.mk "n".toList "pdf".toList (arrayBufferToBase64 [0, 255, 16])
    "n.pdf".toList

/-- A document-only turn holding wDoc. -/
def wDocMsg : CustomMessage := CustomMessage.mk ['a'] .user (.doc wDoc)

theorem history_roundtrip_bytes_witness :
    ∃ t : List Char, (toConverse wDocMsg).content =
      [CBlock.text t,
       CBlock.document (sanitizeFileName wDoc.name) wDoc.format [0, 255, 16]] :=
  history_roundtrip_bytes wDocMsg [] wDoc [0, 255, 16] (by decide) rfl
    (Or.inr rfl)

/-- The id of every turn of a list, in order. -/
def idsOf (msgs : List CustomMessage) : List (List Char) :=
  msgs.map CustomMessage.id

/-- Discipline on the app state: turn ids are pairwise distinct and each
was drawn from the random source at an index below the counter. -/
def IdInv (rnd : Nat → List Char) (st : AppState) : Prop :=
  (idsOf st.messages).Nodup ∧
    ∀ x ∈ idsOf st.messages, ∃ i, i < st.rndCtr ∧ x = rnd i

theorem idsOf_applyDelta (aiId s : List Char) (msgs : List CustomMessage) :
    idsOf (applyDelta aiId s msgs) = idsOf msgs := by
  unfold idsOf applyDelta
  rw [List.map_map]
  apply List.map_congr_left
  intro m _
  by_cases h : m.id = aiId <;> simp [h, Function.comp]

theorem idsOf_runDeltas (aiId : List Char) :
    ∀ (deltas : List (List Char)) (acc : List Char)
      (msgs : List CustomMessage),
      idsOf (runDeltas aiId acc msgs deltas).2 = idsOf msgs := by
  intro deltas
  induction deltas with
  | nil => intro acc msgs; rfl
  | cons d rest ih =>
    intro acc msgs
    by_cases hd : d.isEmpty = true
    · simp only [runDeltas, hd, if_true]
      exact ih acc msgs
    · have hd0 : d.isEmpty = false := by simpa using hd
      simp only [runDeltas, hd0, Bool.false_eq_true, if_false]
      rw [ih, idsOf_applyDelta]

theorem fresh_id_not_mem {rnd : Nat → List Char}
    (hinj : Function.Injective rnd) {ids : List (List Char)} {n k : Nat}
    (hbound : ∀ x ∈ ids, ∃ i, i < n ∧ x = rnd i) (hk : n ≤ k) :
    rnd k ∉ ids := by
  intro hmem
  obtain ⟨i, hi, hx⟩ := hbound (rnd k) hmem
  have h2 : k = i := hinj hx
  omega

theorem nodup_bound_append_one {rnd : Nat → List Char}
    (hinj : Function.Injective rnd) {ids : List (List Char)} {n : Nat}
    (hnd : ids.Nodup) (hbd : ∀ x ∈ ids, ∃ i, i < n ∧ x = rnd i) :
    (ids ++ [rnd n]).Nodup ∧
      ∀ x ∈ ids ++ [rnd n], ∃ i, i < n + 1 ∧ x = rnd i := by
  constructor
  · rw [List.nodup_append]
    refine ⟨hnd, List.nodup_singleton _, ?_⟩
    rw [List.disjoint_singleton]
    exact fresh_id_not_mem hinj hbd (le_refl n)
  · intro x hx
    rcases List.mem_append.mp hx with hx1 | hx2
    · obtain ⟨i, hi, hxi⟩ := hbd x hx1
      exact ⟨i, by omega, hxi⟩
    · simp only [List.mem_singleton] at hx2
      exact ⟨n, by omega, hx2⟩

/-- Inversion of the file-processing catch from the phase result. -/
theorem fileError_shape {rnd : Nat → List Char} {st st1 : AppState}
    (h : submitPhase1 rnd st = .fileError st1) :
    st1.messages = st.messages ++
      [CustomMessage.mk (rnd st.rndCtr) .assistant (.text fileErrorText)] ∧
    st1.rndCtr = st.rndCtr + 1 := by
  rcases hf : st.file with _ | f
  · simp only [submitPhase1, hf, Option.isSome_none, Bool.false_and,
      Bool.false_eq_true, if_false] at h
    by_cases ht : (trimChars st.input).isEmpty = true
    · rw [if_pos ht] at h; simp at h
    · rw [if_neg ht, if_neg (by simp)] at h; simp at h
  · rcases hr : f.readResult with _ | bytes
    · simp only [submitPhase1, hf, hr] at h
      rw [Phase1.fileError.injEq] at h
      subst h
      exact ⟨rfl, rfl⟩
    · simp only [submitPhase1, hf, hr] at h
      simp at h

theorem idsOf_append (l1 l2 : List CustomMessage) :
    idsOf (l1 ++ l2) = idsOf l1 ++ idsOf l2 :=
  List.map_append _ _ _

/-- C9 counterexample: ids come from Math.random and nothing prevents a
repeated value; with a source that repeats, a single submission already
yields two distinct turns — the user turn and the assistant turn, which
differ — carrying the same id. -/
theorem turn_id_collision :
    idsOf (handleSubmit (fun _ => ['x']) (StreamOutcome.mk [] none)
      (AppState.mk "hi".toList false none [] 0)).messages = [['x'], ['x']] ∧
    (handleSubmit (fun _ => ['x']) (StreamOutcome.mk [] none)
      (AppState.mk "hi".toList false none [] 0)).messages[0]? ≠
    (handleSubmit (fun _ => ['x']) (StreamOutcome.mk [] none)
      (AppState.mk "hi".toList false none [] 0)).messages[1]? := by decide

/-- C9 amended: every turn id is drawn from the random source once at
creation and is never rewritten afterwards — after any submission cycle
the previous id sequence is an initial segment of the new one — and,
provided the source never returns the same value twice, the ids of
distinct turns stay pairwise distinct. -/
theorem turn_ids_unique_and_stable
    (rnd : Nat → List Char) (stream : StreamOutcome) (st : AppState)
    (hinj : Function.Injective rnd) (hinv : IdInv rnd st) :
    IdInv rnd (handleSubmit rnd stream st) ∧
      ∃ newIds, idsOf (handleSubmit rnd stream st).messages =
        idsOf st.messages ++ newIds := by
  obtain ⟨hnd, hbd⟩ := hinv
  rcases hphase : submitPhase1 rnd st with _ | st1 | ⟨st1, aiId, payload⟩
  · simp only [handleSubmit, hphase]
    exact ⟨⟨hnd, hbd⟩, [], by simp⟩
  · obtain ⟨hmsgs, hctr⟩ := fileError_shape hphase
    simp only [handleSubmit, hphase]
    have h1 := nodup_bound_append_one hinj hnd hbd
    have hids : idsOf st1.messages = idsOf st.messages ++ [rnd st.rndCtr] := by
      rw [hmsgs, idsOf_append]; rfl
    refine ⟨⟨?_, ?_⟩, ⟨[rnd st.rndCtr], hids⟩⟩
    · rw [hids]; exact h1.1
    · intro x hx
      rw [hids] at hx
      obtain ⟨i, hi, hxi⟩ := h1.2 x hx
      exact ⟨i, by omega, hxi⟩
  · obtain ⟨haid, hctr, hload, hinp, hfile, u, hmsgs, huid, hurole⟩ :=
      dispatched_shape hphase
    have hids1 : idsOf st1.messages =
        (idsOf st.messages ++ [rnd st.rndCtr]) ++ [rnd (st.rndCtr + 1)] := by
      rw [hmsgs, haid, idsOf_append]
      simp [idsOf, huid]
    have h1 := nodup_bound_append_one hinj hnd hbd
    have h2 := nodup_bound_append_one hinj h1.1 h1.2
    cases herr : stream.err with
    | none =>
      simp only [handleSubmit, hphase, herr, IdInv]
      rw [idsOf_runDeltas, hids1]
      refine ⟨⟨h2.1, ?_⟩, ?_⟩
      · intro x hx
        obtain ⟨i, hi, hxi⟩ := h2.2 x hx
        exact ⟨i, by omega, hxi⟩
      · exact ⟨[rnd st.rndCtr, rnd (st.rndCtr + 1)], by
          simp [List.append_assoc]⟩
    | some m =>
      have h3 := nodup_bound_append_one hinj h2.1 h2.2
      simp only [handleSubmit, hphase, herr, IdInv]
      have hidsE : idsOf ((runDeltas aiId [] st1.messages stream.deltas).2 ++
          [CustomMessage.mk (rnd st1.rndCtr) .assistant
            (.text (streamErrorText m))]) =
          ((idsOf st.messages ++ [rnd st.rndCtr]) ++ [rnd (st.rndCtr + 1)]) ++
            [rnd (st.rndCtr + 2)] := by
        rw [idsOf_append, idsOf_runDeltas, hids1, hctr]
        rfl
      rw [hidsE]
      refine ⟨⟨h3.1, ?_⟩, ?_⟩
      · intro x hx
        obtain ⟨i, hi, hxi⟩ := h3.2 x hx
        exact ⟨i, by omega, hxi⟩
      · exact ⟨[rnd st.rndCtr, rnd (st.rndCtr + 1), rnd (st.rndCtr + 2)], by
          simp [List.append_assoc]⟩

theorem turn_ids_unique_and_stable_witness :
    IdInv (fun n => List.replicate n 'a')
      (handleSubmit (fun n => List.replicate n 'a')
        (StreamOutcome.mk [] none) (AppState.mk "hi".toList false none [] 0)) ∧
    ∃ newIds,
      idsOf (handleSubmit (fun n => List.replicate n 'a')
        (StreamOutcome.mk [] none)
        (AppState.mk "hi".toList false none [] 0)).messages =
      idsOf (AppState.mk "hi".toList false none [] 0).messages ++ newIds :=
  turn_ids_unique_and_stable (fun n => List.replicate n 'a')
    (StreamOutcome.mk [] none) (AppState.mk "hi".toList false none [] 0)
    (fun i j h => by simpa using congrArg List.length h)
    (by simp [IdInv, idsOf])
